import Mathlib

/-!
Verification of the kiwiglider basic-processing pipeline.

The repository ships the variable alias table (canonical scientific variable
name to the preference-ordered list of raw SLOCUM channel names) as data; that
table is embedded verbatim below.  The operations of kiwiglider.basic
(DeploymentYAML, DeploymentNetCDF) are modelled from the specification, as
noted on each definition.
-/

namespace Kiwiglider

/-- The variable alias table shipped with the repository: canonical netCDF
variable name paired with the ordered list of possible SLOCUM raw channel
names, in file order. -/
def aliasTable : List (String × List String) := [
  ("attenuation", ["sci_bbam_beam_c"]),
  ("backscatter", ["sci_bbfl2s_bb_scaled", "sci_flbbrh_bb_units",
    "sci_flbbcd_bb_units", "sci_flbb_bb_units", "sci_flbbbbV1_bb1_scaled",
    "sci_flbbbbV1_bb2_scaled", "sci_flbbbbV2_bb1_scaled",
    "sci_flbbbbV2_bb2_scaled"]),
  ("backscatter_412", ["sci_bb2flsV4_b412_scaled"]),
  ("backscatter_470", ["sci_bb2f_b470", "sci_bb2flsV2_b470_scaled",
    "sci_bb3slo_b470_scaled", "sci_bb2fV2_b470_scaled",
    "sci_bb2flsV4_b470_scaled", "sci_bb2flsV8_b470_scaled"]),
  ("backscatter_532", ["sci_bb2c_beta532_eng_units", "sci_bbfl2sV2_bb_scaled",
    "sci_bb3slo_b532_scaled", "sci_bb3sloV2_b532_scaled",
    "sci_bb3sloV3_b532_scaled", "sci_bb2flsV2_b532_scaled",
    "sci_bb2flsV5_b532_scaled", "sci_bb2flsV6_b532_scaled",
    "sci_bb2flsV7_b532_scaled", "sci_bb2flsV9_b532_scaled"]),
  ("backscatter_630", ["sci_bb3sloV3_b630_scaled"]),
  ("backscatter_650", ["sci_bb2flsV7_b532_scaled"]),
  ("backscatter_660", ["sci_bb2c_beta660_eng_units", "sci_bb3slo_b660_scaled",
    "sci_bb3sloV2_b660_scaled", "sci_bb2fls_b660_scaled",
    "sci_bb2flsV5_b660_scaled"]),
  ("backscatter_700", ["sci_bb2f_b700", "sci_bb2fV2_b700_scaled",
    "sci_bb2flsV8_b700_scaled", "sci_bb2flsV9_b700_scaled"]),
  ("backscatter_715", ["sci_bb2flsV3_b715_scaled"]),
  ("backscatter_880", ["sci_bb2lss_beta880_eng_units",
    "sci_bb3sloV2_b880_scaled", "sci_bb3sloV3_b880_scaled",
    "sci_bb2fls_b880_scaled", "sci_bb2flsV3_b880_scaled",
    "sci_bb2flsV6_b880_scaled"]),
  ("cdom", ["sci_bb2c_cdom", "sci_bbfl2s_cdom_scaled",
    "sci_bbfl2sV2_fl2_scaled", "sci_fl3slo_cdom_units",
    "sci_fl3sloV2_cdom_units", "sci_bb2fls_cdom_scaled",
    "sci_bb2flsV5_cdom_scaled", "sci_bb2flsV6_cdom_scaled",
    "sci_flbbcd_cdom_units", "sci_fl2PeCdom_cdom_units"]),
  ("chlorophyll", ["sci_bb2f_fluor", "sci_bbfl2s_chlor_scaled",
    "sci_fl3slo_chlor_units", "sci_flntu_chlor_units",
    "sci_fl3sloV2_chlor_units", "sci_bb2flsV2_chl_scaled",
    "sci_bb2fV2_chlor_scaled", "sci_bb2flsV4_chl_scaled",
    "sci_flbbrh_chlor_units", "sci_bb2flsV7_chl_scaled",
    "sci_flbbcd_chlor_units", "sci_flbb_chlor_units",
    "sci_bb2flsV8_chl_scaled", "sci_bb2flsV9_chl_scaled",
    "sci_flbbbbV1_fl_scaled", "sci_flbbbbV2_fl_scaled"]),
  ("co2", ["sci_miniProCO2_correctedCO2"]),
  ("conductivity", ["sci_water_cond", "sci_rbrctd_conductivity"]),
  ("conductivity2", ["sci_water_cond2"]),
  ("heading", ["m_heading"]),
  ("latitude", ["m_gps_lat"]),
  ("lisst", ["sci_lisst_is_installed"]),
  ("longitude", ["m_gps_lon"]),
  ("methane", ["sci_lms_methane"]),
  ("microrider", ["sci_microrider_is_installed"]),
  ("nitrate", ["sci_suna_nitrate_concentration"]),
  ("oxygen_concentration", ["sci_oxy3835_oxygen", "sci_oxy3835_wphase_oxygen",
    "sci_oxy4_oxygen"]),
  ("oxygen_saturation", ["sci_rinkoII_DO"]),
  ("par", ["sci_whpar_par", "sci_satpar_par", "sci_bsipar_par"]),
  ("pco2", ["sci_pCO2_pCO2"]),
  ("pH", ["sci_sbe41n_ph_electrode_voltage"]),
  ("phycoerythrin", ["sci_bbfl2sV2_fl1_scaled", "sci_fl3slo_phyco_units",
    "sci_bb2flsV3_pe_scaled", "sci_fl2PeCdom_pe_units"]),
  ("pitch", ["m_pitch"]),
  ("pressure", ["sci_water_pressure", "sci_rbrctd_pressure_00"]),
  ("pressure2", ["sci_water_pressure2"]),
  ("roll", ["m_roll"]),
  ("scatter_attenuation", ["sci_sam_c_mix", "sci_sam_vis"]),
  ("temperature", ["sci_water_temp", "sci_rbrctd_temperature_00"]),
  ("temperature2", ["sci_water_temp2"]),
  ("time", ["m_present_time"]),
  ("turbidity", ["sci_flntu_turb_units"]),
  ("water_velocity_eastward", ["m_water_vx"]),
  ("water_velocity_northward", ["m_water_vy"])]

/-- Modelled from the spec: the per-variable step of the Variable Name
Resolver of kiwiglider.basic, whose code is not under src; it chooses the
first raw channel name in the preference-ordered alias list that is present
in the deployment's decoded streams, or none when no alias is present. -/
def resolveVar (aliases present : List String) : Option String :=
  aliases.find? fun raw => present.contains raw

/-- Modelled from the spec: the Variable Name Resolver of kiwiglider.basic,
whose code is not under src; it binds every canonical variable of the alias
table to its resolved raw channel name (none meaning absent). -/
def resolve (table : List (String × List String)) (present : List String) :
    List (String × Option String) :=
  table.map fun e => (e.1, resolveVar e.2 present)

/-- Look up the binding of one canonical variable in a resolution result. -/
def binding (res : List (String × Option String)) (cv : String) :
    Option (Option String) :=
  (res.find? fun e => e.1 == cv).map Prod.snd

/-- The raw channels present in the scenario deployment. -/
def scenarioChannels : List String :=
  ["sci_water_cond", "sci_oxy4_oxygen", "m_gps_lat", "m_gps_lon"]

/-- The alias list the table assigns to one canonical variable. -/
def aliasesOf (cv : String) : List String :=
  ((aliasTable.find? fun e => e.1 == cv).map Prod.snd).getD []

/-- Whether two lists of raw channel names share no element. -/
def rawDisjoint (xs ys : List String) : Bool :=
  xs.all fun x => !(ys.contains x)

/-- Whether the alias lists of an alias table are pairwise disjoint. -/
def tableDisjoint : List (String × List String) → Bool
  | [] => true
  | e :: rest => (rest.all fun f => rawDisjoint e.2 f.2) && tableDisjoint rest

/-- A row of the tabular deployment metadata source. -/
structure Row where
  deployment_id : Nat
  fields : List (String × String)
deriving DecidableEq

/-- An error of the Metadata Builder, naming the offending deployment id. -/
inductive BuildError
  | deploymentNotFound (deployment_id : Nat)
  | duplicateDeployment (deployment_id : Nat)
deriving DecidableEq

/-- Merge of row fields with metadata overrides, overrides taking
precedence. -/
def mergeFields (fields overrides : List (String × String)) :
    List (String × String) :=
  (fields.filter fun f => !(overrides.any fun o => o.1 == f.1)) ++ overrides

/-- Modelled from the spec: DeploymentYAML.construct_yaml of
kiwiglider.basic, whose code is not under src; it looks up the row matching
the deployment id in the tabular source, fails with a deployment-not-found
error naming the id when no row matches and with a duplicate-deployment
error when more than one row matches, and otherwise merges the row fields
with the overrides into the configuration document. -/
def construct_yaml (deployment_id : Nat) (source : List Row)
    (overrides : List (String × String)) :
    Except BuildError (List (String × String)) :=
  match source.filter fun r => r.deployment_id == deployment_id with
  | [] => .error (.deploymentNotFound deployment_id)
  | [r] => .ok (mergeFields r.fields overrides)
  | _ :: _ :: _ => .error (.duplicateDeployment deployment_id)

/-- Modelled from the spec: the serialization of DeploymentYAML.write_yaml,
whose code is not under src; the rendered key-value lines are emitted in
sorted order (stable key ordering), so the bytes depend only on the entries
of the document. -/
def serializeDoc (doc : List (String × String)) : String :=
  String.join (List.insertionSort (fun a b => a ≤ b)
    (doc.map fun e => e.1 ++ ": " ++ e.2 ++ "\n"))

/-- Modelled from the spec: DeploymentYAML.write_yaml, whose code is not
under src; it stores the serialized configuration document at the target
path of the file system, leaving every other path untouched. -/
def write_yaml (doc : List (String × String)) (path : String)
    (fs : String → Option String) : String → Option String :=
  fun p => if p = path then some (serializeDoc doc) else fs p

/-- Construct followed by write: on a construction error the file system is
returned unchanged and no configuration document is written. -/
def constructAndWrite (deployment_id : Nat) (source : List Row)
    (overrides : List (String × String)) (path : String)
    (fs : String → Option String) :
    Except BuildError (List (String × String)) × (String → Option String) :=
  match construct_yaml deployment_id source overrides with
  | .error e => (.error e, fs)
  | .ok doc => (.ok doc, write_yaml doc path fs)

/-- A decoded sample: a timestamp and a value. -/
structure Sample where
  time : Nat
  value : Int
deriving DecidableEq

/-- Modelled from the spec: the merge step of DeploymentNetCDF.make_L0 of
kiwiglider.basic, whose code is not under src; one decoded sample is placed
onto the strictly increasing time axis, replacing any earlier sample that
carries the same timestamp, so the later-arriving sample wins. -/
def insertSample (s : Sample) : List Sample → List Sample
  | [] => [s]
  | t :: rest =>
    if s.time < t.time then s :: t :: rest
    else if s.time = t.time then s :: rest
    else t :: insertSample s rest

/-- Modelled from the spec: DeploymentNetCDF.make_L0 of kiwiglider.basic,
whose code is not under src; it merges all decoded samples in log append
order onto a single common time axis. -/
def make_L0 (samples : List Sample) : List Sample :=
  samples.foldl (fun acc s => insertSample s acc) []

/-- A strictly increasing time axis. -/
abbrev timeSorted (l : List Sample) : Prop :=
  l.Chain' fun a b => a.time < b.time

/-- The sample a merged timeseries holds at one timestamp. -/
def findTime (l : List Sample) (t : Nat) : Option Sample :=
  l.find? fun s => s.time == t

instance : IsTrans Sample fun a b => a.time < b.time :=
  ⟨fun _ _ _ h1 h2 => Nat.lt_trans h1 h2⟩

/-- Modelled from the spec: realtime finalization of the Pipeline, whose
code is not under src; each newly decoded sample is upserted by timestamp
into the previously finalized record list, so re-ingesting an
already-finalized time range updates records in place instead of
duplicating them. -/
def finalizeRealtime (prior raw : List Sample) : List Sample :=
  raw.foldl (fun acc s => insertSample s acc) prior

/-- The previously finalized records of the realtime re-run scenario. -/
def priorW : List Sample := [⟨0, 5⟩, ⟨1, 6⟩, ⟨2, 7⟩]

/-- The 10 new samples of the realtime re-run scenario. -/
def newW : List Sample := [⟨10, 0⟩, ⟨11, 0⟩, ⟨12, 0⟩, ⟨13, 0⟩, ⟨14, 0⟩,
  ⟨15, 0⟩, ⟨16, 0⟩, ⟨17, 0⟩, ⟨18, 0⟩, ⟨19, 0⟩]

/-- The QARTOD quality flag codes. -/
inductive QCFlag
  | pass
  | suspect
  | fail
  | missing
deriving DecidableEq

/-- Tunable bounds of the automated quality tests of one variable. -/
structure QCConfig where
  rangeMin : Int
  rangeMax : Int
  spikeMax : Nat
deriving DecidableEq

/-- Modelled from the spec: the per-sample flag assignment of
DeploymentNetCDF.make_L1, whose code is not under src; a missing marker is
flagged missing, a value outside the configured range fails, a jump from
the previous defined value beyond the spike and rate-of-change bound is
suspect, and anything else passes. -/
def qcFlag (cfg : QCConfig) (prev v : Option Int) : QCFlag :=
  match v with
  | none => .missing
  | some x =>
    if x < cfg.rangeMin ∨ cfg.rangeMax < x then .fail
    else
      match prev with
      | some p => if cfg.spikeMax < (x - p).natAbs then .suspect else .pass
      | none => .pass

/-- Modelled from the spec: DeploymentNetCDF.make_L1 of kiwiglider.basic,
whose code is not under src; every L0 sample of an observed variable is
annotated with exactly one quality flag, the last defined value being
carried forward for the rate-of-change test, and the values themselves are
copied through unmodified. -/
def make_L1 (cfg : QCConfig) : Option Int → List (Option Int) →
    List (Option Int × QCFlag)
  | _, [] => []
  | prev, v :: rest =>
    (v, qcFlag cfg prev v) ::
      make_L1 cfg (match v with | some x => some x | none => prev) rest

/-- Parameters of the delayed-mode corrections: a thermal mass coefficient
and a sensor response time constant, as scaled integers. -/
structure CorrectionParams where
  alpha : Int
  tau : Int
deriving DecidableEq

/-- The column a timeseries holds for one canonical variable name. -/
def findVar (ts : List (String × List Int)) (name : String) :
    Option (List Int) :=
  (ts.find? fun v => v.1 == name).map Prod.snd

/-- First-order lag compensation of a series: each reading is advanced by
the scaled difference with the preceding reading. -/
def lagCorrect (k : Int) : Int → List Int → List Int
  | _, [] => []
  | prev, x :: rest => (x + k * (x - prev)) :: lagCorrect k x rest

/-- Modelled from the spec: the thermal-lag correction of the delayed-mode
post-processing, whose code is not under src; when conductivity and
temperature are present it appends a lag-corrected conductivity as a new
derived variable, and when the sensor is absent it is a no-op. -/
def thermal_lag (p : CorrectionParams) (ts : List (String × List Int)) :
    List (String × List Int) :=
  match findVar ts "conductivity" with
  | none => ts
  | some c =>
    match findVar ts "temperature" with
    | none => ts
    | some _ =>
      ts ++ [("conductivity_lag_corrected",
        lagCorrect p.alpha (c.headD 0) c)]

/-- Modelled from the spec: the optode response-time correction of the
delayed-mode post-processing, whose code is not under src; when an oxygen
concentration column is present it appends a response-corrected oxygen
concentration as a new derived variable, and when the optode is absent it
is a no-op. -/
def optode_correction (p : CorrectionParams)
    (ts : List (String × List Int)) : List (String × List Int) :=
  match findVar ts "oxygen_concentration" with
  | none => ts
  | some o =>
    ts ++ [("oxygen_concentration_corrected",
      lagCorrect p.tau (o.headD 0) o)]

/-- Vertical direction of glider motion: depth increasing is a dive. -/
inductive VDir
  | dive
  | climb
deriving DecidableEq

/-- Direction of one depth step. -/
def dirOf (a b : Int) : VDir := if a < b then .dive else .climb

/-- Modelled from the spec: the segment walk of profile splitting in
DeploymentNetCDF.make_L0, whose code is not under src; the depth signal is
cut at every vertical-direction reversal, the turning sample closing the
preceding segment; the running segment is accumulated in reverse. -/
def splitAux (prev : Int) (d : VDir) (acc : List Int) :
    List Int → List (List Int)
  | [] => [acc.reverse]
  | x :: rest =>
    if dirOf prev x = d then splitAux x d (x :: acc) rest
    else acc.reverse :: splitAux x (dirOf prev x) [x] rest

/-- Modelled from the spec: profile splitting of DeploymentNetCDF.make_L0,
whose code is not under src; the depth signal is split into contiguous
stretches between successive vertical-direction reversals. -/
def splitProfiles : List Int → List (List Int)
  | [] => []
  | [x] => [[x]]
  | x :: y :: rest => splitAux y (dirOf x y) [y, x] rest

/-- The per-step directions of a depth signal. -/
def dirs : List Int → List VDir
  | [] => []
  | [_] => []
  | a :: b :: rest => dirOf a b :: dirs (b :: rest)

/-- The number of adjacent direction changes in a direction sequence. -/
def countRev : List VDir → Nat
  | [] => 0
  | [_] => 0
  | a :: b :: rest => (if a = b then 0 else 1) + countRev (b :: rest)

/-- The number of vertical-direction reversals of a depth signal. -/
def reversals (depths : List Int) : Nat := countRev (dirs depths)

/-- The forward walk of short-segment merging, carrying the segment under
construction. -/
def mergeShortGo (m : Nat) (cur : List Int) : List (List Int) → List (List Int)
  | [] => [cur]
  | t :: rest =>
    if cur.length < m then mergeShortGo m (cur ++ t) rest
    else cur :: mergeShortGo m t rest

/-- Modelled from the spec: merging of too-short profile segments, whose
code is not under src; a segment shorter than the minimum sample count is
merged into its following neighbor instead of being emitted. -/
def mergeShort (m : Nat) : List (List Int) → List (List Int)
  | [] => []
  | s :: rest => mergeShortGo m s rest

/-- Modelled from the spec: a too-short final segment is merged backward
into its preceding neighbor instead of being emitted. -/
def fixLast (m : Nat) : List (List Int) → List (List Int)
  | [] => []
  | [s] => [s]
  | [s, t] => if t.length < m then [s ++ t] else [s, t]
  | s :: t :: u :: rest => s :: fixLast m (t :: u :: rest)

/-- Profile segments after short-segment merging. -/
def profiles (m : Nat) (depths : List Int) : List (List Int) :=
  fixLast m (mergeShort m (splitProfiles depths))

/-- Profile segments paired with their sequential identifiers. -/
def profilesWithIds (m : Nat) (depths : List Int) : List (Nat × List Int) :=
  (profiles m depths).enum

/-- One depth step in a direction. -/
def stepD : VDir → Int → Int
  | .dive, x => x + 1
  | .climb, x => x - 1

/-- The opposite vertical direction. -/
def flipD : VDir → VDir
  | .dive => .climb
  | .climb => .dive

/-- A strictly monotone run of depth steps from x in direction d. -/
def mkRun (d : VDir) (x : Int) : Nat → List Int
  | 0 => []
  | n + 1 => stepD d x :: mkRun d (stepD d x) n

/-- The depth reached after n steps from x in direction d. -/
def runEnd (d : VDir) (x : Int) (n : Nat) : Int :=
  match d with
  | .dive => x + n
  | .climb => x - n

/-- The synthetic sawtooth tail: alternating monotone runs. -/
def sawAux (x : Int) (d : VDir) : List Nat → List Int
  | [] => []
  | l :: ls => mkRun d x l ++ sawAux (runEnd d x l) (flipD d) ls

/-- A synthetic sawtooth depth signal starting at x, moving first in
direction d, with the given run lengths. -/
def sawtooth (x : Int) (d : VDir) (ls : List Nat) : List Int :=
  x :: sawAux x d ls

/-- The segments the splitter is expected to produce after the first one. -/
def expectedSegs (x : Int) (d : VDir) : List Nat → List (List Int)
  | [] => []
  | l :: ls => mkRun d x l :: expectedSegs (runEnd d x l) (flipD d) ls

/-- A segment that is internally monotonic in depth-direction. -/
def monotoneSeg (s : List Int) : Prop :=
  s.Chain' (· < ·) ∨ s.Chain' (· > ·)

/-- The depth order along a direction. -/
def dirRel : VDir → Int → Int → Prop
  | .dive => (· < ·)
  | .climb => fun a b => b < a

theorem contains_true_iff (l : List String) (a : String) :
    l.contains a = true ↔ a ∈ l := by
  simp [List.contains]

theorem resolveVar_first (aliases present : List String) (r : String) :
    resolveVar aliases present = some r ↔
      ∃ pre suf, aliases = pre ++ r :: suf ∧ r ∈ present ∧
        ∀ a ∈ pre, a ∉ present := by
  rw [resolveVar, List.find?_eq_some]
  constructor
  · rintro ⟨hr, pre, suf, hdec, hpre⟩
    refine ⟨pre, suf, hdec, (contains_true_iff present r).mp hr, ?_⟩
    intro a ha hmem
    have := hpre a ha
    rw [(contains_true_iff present a).mpr hmem] at this
    simp at this
  · rintro ⟨pre, suf, hdec, hr, hpre⟩
    refine ⟨(contains_true_iff present r).mpr hr, pre, suf, hdec, ?_⟩
    intro a ha
    have h0 : ¬ present.contains a = true := fun hc =>
      hpre a ha ((contains_true_iff present a).mp hc)
    simpa using h0

theorem find?_congr_pred {α : Type} (l : List α) (p q : α → Bool)
    (h : ∀ a, p a = q a) : l.find? p = l.find? q := by
  induction l with
  | nil => rfl
  | cons a as ih =>
    rcases hqa : q a with _ | _
    · rw [List.find?_cons_of_neg _ (by simp [h a, hqa]),
        List.find?_cons_of_neg _ (by simp [hqa]), ih]
    · rw [List.find?_cons_of_pos _ (by simp [h a, hqa]),
        List.find?_cons_of_pos _ hqa]

theorem resolveVar_none (aliases present : List String) :
    resolveVar aliases present = none ↔ ∀ a ∈ aliases, a ∉ present := by
  rw [resolveVar, List.find?_eq_none]
  constructor
  · intro h a ha hmem
    exact h a ha ((contains_true_iff present a).mpr hmem)
  · intro h a ha hc
    exact h a ha ((contains_true_iff present a).mp hc)

/-- C1: for every alias table and set of present raw channel names, the
resolver binds each canonical variable to the first raw channel name of its
preference-ordered alias list that is present, records it as absent when no
alias is present, and on the scenario deployment channels the repository's
own alias table resolves conductivity to sci_water_cond,
oxygen_concentration to sci_oxy4_oxygen, latitude to m_gps_lat and
longitude to m_gps_lon. -/
theorem C1_resolver_first_match :
    (∀ (aliases present : List String) (r : String),
        resolveVar aliases present = some r ↔
          ∃ pre suf, aliases = pre ++ r :: suf ∧ r ∈ present ∧
            ∀ a ∈ pre, a ∉ present)
    ∧ (∀ aliases present : List String,
        resolveVar aliases present = none ↔ ∀ a ∈ aliases, a ∉ present)
    ∧ binding (resolve aliasTable scenarioChannels) "conductivity"
        = some (some "sci_water_cond")
    ∧ binding (resolve aliasTable scenarioChannels) "oxygen_concentration"
        = some (some "sci_oxy4_oxygen")
    ∧ binding (resolve aliasTable scenarioChannels) "latitude"
        = some (some "m_gps_lat")
    ∧ binding (resolve aliasTable scenarioChannels) "longitude"
        = some (some "m_gps_lon") :=
  ⟨resolveVar_first, resolveVar_none, by decide, by decide, by decide,
    by decide⟩

/-- Witness for C1 at concrete inputs: on the alias list of
oxygen_concentration and the scenario channels, the first present alias is
sci_oxy4_oxygen, the two earlier aliases being absent; and a variable with
no present alias resolves to none. -/
theorem C1_resolver_first_match_witness :
    resolveVar ["sci_oxy3835_oxygen", "sci_oxy3835_wphase_oxygen",
        "sci_oxy4_oxygen"] scenarioChannels = some "sci_oxy4_oxygen"
    ∧ resolveVar ["sci_water_temp"] scenarioChannels = none :=
  ⟨(C1_resolver_first_match.1 _ _ _).mpr
      ⟨["sci_oxy3835_oxygen", "sci_oxy3835_wphase_oxygen"], [], rfl,
        by decide, by decide⟩,
    (C1_resolver_first_match.2.1 _ _).mpr (by decide)⟩

/-- C2: the repository's alias table violates the disjointness invariant:
the raw channel name sci_bb2flsV7_b532_scaled is listed under both
backscatter_532 and backscatter_650, so the alias lists of the table are not
pairwise disjoint. -/
theorem C2_alias_table_not_disjoint :
    "sci_bb2flsV7_b532_scaled" ∈ aliasesOf "backscatter_532"
    ∧ "sci_bb2flsV7_b532_scaled" ∈ aliasesOf "backscatter_650"
    ∧ tableDisjoint aliasTable = false := by
  refine ⟨by decide, by decide, by decide⟩

/-- C4: resolution is a deterministic pure function of the alias table and
the set of present raw names: re-running on the same inputs yields the same
bindings, and two present-name lists with the same membership resolve
identically. -/
theorem C4_resolution_deterministic :
    (∀ (table : List (String × List String)) (present : List String),
        resolve table present = resolve table present)
    ∧ ∀ (table : List (String × List String)) (p q : List String),
        (∀ x, x ∈ p ↔ x ∈ q) → resolve table p = resolve table q := by
  refine ⟨fun _ _ => rfl, fun table p q h => ?_⟩
  unfold resolve resolveVar
  refine List.map_congr_left fun e _ => ?_
  congr 1
  refine find?_congr_pred _ _ _ fun a => ?_
  have : a ∈ p ↔ a ∈ q := h a
  by_cases hp : a ∈ p
  · rw [(contains_true_iff p a).mpr hp, (contains_true_iff q a).mpr (this.mp hp)]
  · have hq : a ∉ q := fun hq => hp (this.mpr hq)
    have e1 : p.contains a ≠ true := fun hc => hp ((contains_true_iff p a).mp hc)
    have e2 : q.contains a ≠ true := fun hc => hq ((contains_true_iff q a).mp hc)
    simp only [Bool.not_eq_true] at e1 e2
    rw [e1, e2]

/-- Witness for C4 at concrete inputs: two orderings of the same present-name
set yield identical bindings. -/
theorem C4_resolution_deterministic_witness :
    resolve [("temperature", ["sci_water_temp", "sci_rbrctd_temperature_00"])]
        ["sci_water_temp", "m_pitch"]
      = resolve [("temperature", ["sci_water_temp",
          "sci_rbrctd_temperature_00"])] ["m_pitch", "sci_water_temp"] :=
  C4_resolution_deterministic.2 _ _ _ (by intro x; constructor <;>
    (intro h; simp only [List.mem_cons, List.not_mem_nil, or_false] at h ⊢
     tauto))

/-- C5: a deployment id absent from the tabular source makes construction
fail with a deployment-not-found error naming that id while the file system
is left unchanged, and an id matched by more than one row makes
construction fail with a duplicate-deployment error naming the id. -/
theorem C5_construct_errors :
    (∀ (deployment_id : Nat) (source : List Row)
        (overrides : List (String × String)) (path : String)
        (fs : String → Option String),
        (∀ r ∈ source, r.deployment_id ≠ deployment_id) →
          constructAndWrite deployment_id source overrides path fs
            = (.error (.deploymentNotFound deployment_id), fs))
    ∧ ∀ (deployment_id : Nat) (source : List Row)
        (overrides : List (String × String)),
        2 ≤ (source.filter fun r => r.deployment_id == deployment_id).length →
          construct_yaml deployment_id source overrides
            = .error (.duplicateDeployment deployment_id) := by
  constructor
  · intro deployment_id source overrides path fs h
    have hfil : (source.filter fun r => r.deployment_id == deployment_id)
        = [] := by
      rw [List.filter_eq_nil_iff]
      intro r hr
      simpa using h r hr
    unfold constructAndWrite construct_yaml
    rw [hfil]
  · intro deployment_id source overrides h
    unfold construct_yaml
    rcases hfil : source.filter fun r => r.deployment_id == deployment_id
      with _ | ⟨a, _ | ⟨b, rest⟩⟩
    · rw [hfil] at h; simp at h
    · rw [hfil] at h; simp at h
    · rw [hfil]

/-- Witness for C5 at concrete inputs: looking up id 40 in a source holding
only id 39 fails with a deployment-not-found error and writes nothing, and
a source holding id 39 twice fails with a duplicate-deployment error. -/
theorem C5_construct_errors_witness :
    constructAndWrite 40 [⟨39, []⟩] [] "deployment_metadata.yml"
        (fun _ => none)
      = (.error (.deploymentNotFound 40), fun _ => none)
    ∧ construct_yaml 39 [⟨39, []⟩, ⟨39, []⟩] []
      = .error (.duplicateDeployment 39) :=
  ⟨C5_construct_errors.1 40 [⟨39, []⟩] [] "deployment_metadata.yml" _
      (by intro r hr; simp at hr; simp [hr]),
    C5_construct_errors.2 39 [⟨39, []⟩, ⟨39, []⟩] [] (by decide)⟩

/-- C6: serialization has stable key ordering: any two documents holding the
same entries serialize to byte-identical output, and writing an unchanged
document again over its previous write leaves byte-identical file contents;
in particular a successful construct followed by write and a re-write of
the same document stores the same bytes both times. -/
theorem C6_stable_serialization :
    (∀ d1 d2 : List (String × String),
        d1.Perm d2 → serializeDoc d1 = serializeDoc d2)
    ∧ (∀ (doc : List (String × String)) (path : String)
        (fs : String → Option String),
        write_yaml doc path (write_yaml doc path fs) = write_yaml doc path fs)
    ∧ ∀ (deployment_id : Nat) (source : List Row)
        (overrides doc : List (String × String)) (path : String)
        (fs : String → Option String),
        construct_yaml deployment_id source overrides = .ok doc →
          write_yaml doc path (write_yaml doc path fs) path
              = some (serializeDoc doc)
          ∧ write_yaml doc path fs path = some (serializeDoc doc) := by
  refine ⟨?_, ?_, ?_⟩
  · intro d1 d2 hperm
    unfold serializeDoc
    congr 1
    have hp : (d1.map fun e => e.1 ++ ": " ++ e.2 ++ "\n").Perm
        (d2.map fun e => e.1 ++ ": " ++ e.2 ++ "\n") := hperm.map _
    refine List.eq_of_perm_of_sorted
      ((List.perm_insertionSort _ _).trans
        (hp.trans (List.perm_insertionSort _ _).symm))
      (List.sorted_insertionSort _ _) (List.sorted_insertionSort _ _)
  · intro doc path fs
    funext p
    unfold write_yaml
    by_cases hp : p = path <;> simp [hp]
  · intro deployment_id source overrides doc path fs _
    constructor <;> simp [write_yaml]

/-- Witness for C6 at concrete inputs: two permuted two-entry documents
serialize to the same bytes. -/
theorem C6_stable_serialization_witness :
    serializeDoc [("title", "OCOF"), ("institution", "NIWA")]
      = serializeDoc [("institution", "NIWA"), ("title", "OCOF")] :=
  C6_stable_serialization.1 _ _ (by
    exact List.Perm.swap _ _ [])

theorem head?_insertSample (s : Sample) (l : List Sample) :
    (insertSample s l).head? = some s ∨ (insertSample s l).head? = l.head? := by
  cases l with
  | nil => exact Or.inl rfl
  | cons t rest =>
    by_cases h1 : s.time < t.time
    · exact Or.inl (by simp [insertSample, h1])
    · by_cases h2 : s.time = t.time
      · exact Or.inl (by simp [insertSample, h1, h2])
      · exact Or.inr (by simp [insertSample, h1, h2])

theorem insertSample_sorted (s : Sample) (l : List Sample)
    (h : timeSorted l) : timeSorted (insertSample s l) := by
  induction l with
  | nil => simp [insertSample]
  | cons t rest ih =>
    rw [timeSorted, List.chain'_cons'] at h
    by_cases h1 : s.time < t.time
    · rw [show insertSample s (t :: rest) = s :: t :: rest from by
        simp [insertSample, h1]]
      refine List.chain'_cons'.mpr ⟨?_, List.chain'_cons'.mpr h⟩
      intro y hy
      simp at hy
      subst hy
      exact h1
    · by_cases h2 : s.time = t.time
      · rw [show insertSample s (t :: rest) = s :: rest from by
          simp [insertSample, h1, h2]]
        refine List.chain'_cons'.mpr ⟨?_, h.2⟩
        intro y hy
        rw [h2]
        exact h.1 y hy
      · rw [show insertSample s (t :: rest) = t :: insertSample s rest from by
          simp [insertSample, h1, h2]]
        refine List.chain'_cons'.mpr ⟨?_, ih h.2⟩
        intro y hy
        rcases head?_insertSample s rest with hc | hc
        · rw [hc] at hy
          simp at hy
          subst hy
          omega
        · rw [hc] at hy
          exact h.1 y hy

theorem findTime_insertSample (s : Sample) (l : List Sample) (u : Nat) :
    findTime (insertSample s l) u
      = if u = s.time then some s else findTime l u := by
  induction l with
  | nil =>
    by_cases h : u = s.time
    · simp [insertSample, findTime, h]
    · have : ¬ s.time = u := fun hc => h hc.symm
      simp [insertSample, findTime, this, h]
  | cons t rest ih =>
    by_cases h1 : s.time < t.time
    · rw [show insertSample s (t :: rest) = s :: t :: rest from by
        simp [insertSample, h1]]
      by_cases hu : u = s.time
      · rw [if_pos hu, findTime, List.find?_cons_of_pos _ (by simp [hu])]
      · rw [if_neg hu, findTime,
          List.find?_cons_of_neg _ (by simp; omega), ← findTime]
    · by_cases h2 : s.time = t.time
      · rw [show insertSample s (t :: rest) = s :: rest from by
          simp [insertSample, h1, h2]]
        by_cases hu : u = s.time
        · rw [if_pos hu, findTime, List.find?_cons_of_pos _ (by simp [hu])]
        · rw [if_neg hu, findTime, List.find?_cons_of_neg _ (by simp; omega),
            findTime, List.find?_cons_of_neg _ (by simp; omega)]
      · rw [show insertSample s (t :: rest) = t :: insertSample s rest from by
          simp [insertSample, h1, h2]]
        by_cases hut : u = t.time
        · rw [findTime, List.find?_cons_of_pos _ (by simp [hut]),
            if_neg (by omega), findTime,
            List.find?_cons_of_pos _ (by simp [hut])]
        · rw [findTime, List.find?_cons_of_neg _ (by simp; omega), ← findTime,
            ih]
          by_cases hu : u = s.time
          · rw [if_pos hu, if_pos hu]
          · rw [if_neg hu, if_neg hu, findTime, findTime,
              List.find?_cons_of_neg _ (by simp; omega)]

theorem foldl_insert_sorted (raw acc : List Sample) (h : timeSorted acc) :
    timeSorted (raw.foldl (fun a s => insertSample s a) acc) := by
  induction raw generalizing acc with
  | nil => exact h
  | cons s rest ih => exact ih _ (insertSample_sorted s acc h)

theorem make_L0_sorted (samples : List Sample) :
    timeSorted (make_L0 samples) :=
  foldl_insert_sorted samples [] (by simp)

theorem getLast?_cons_or {α : Type} (a : α) (l : List α) :
    (a :: l).getLast? = l.getLast?.or (some a) := by
  cases l with
  | nil => rfl
  | cons b bs =>
    rw [List.getLast?_cons_cons]
    have hns : (b :: bs).getLast?.isSome := List.getLast?_isSome.mpr (by simp)
    obtain ⟨x, hx⟩ := Option.isSome_iff_exists.mp hns
    rw [hx]
    rfl

theorem findTime_foldl (raw acc : List Sample) (t : Nat) :
    findTime (raw.foldl (fun a s => insertSample s a) acc) t
      = ((raw.filter fun s => s.time == t).getLast?).or (findTime acc t) := by
  induction raw generalizing acc with
  | nil => simp
  | cons s rest ih =>
    rw [List.foldl_cons, ih, findTime_insertSample]
    by_cases h : s.time = t
    · rw [List.filter_cons_of_pos (by simp [h]), if_pos h.symm,
        getLast?_cons_or]
      rcases hg : (rest.filter fun x => x.time == t).getLast? with _ | v <;>
        rw [hg] <;> rfl
    · rw [List.filter_cons_of_neg (by simp [h]), if_neg (by omega)]

theorem findTime_make_L0 (samples : List Sample) (t : Nat) :
    findTime (make_L0 samples) t
      = (samples.filter fun s => s.time == t).getLast? := by
  rw [make_L0, findTime_foldl]
  simp [findTime]

theorem timeSorted_nodup (l : List Sample) (h : timeSorted l) :
    (l.map Sample.time).Nodup := by
  have hp : l.Pairwise fun a b => a.time < b.time :=
    List.chain'_iff_pairwise.mp h
  rw [List.Nodup, List.pairwise_map]
  exact hp.imp fun hab => Nat.ne_of_lt hab

/-- C3: every merged L0 timeseries has a strictly increasing time axis with
no duplicate timestamps, and at every timestamp shared by several input
samples the merge keeps the later-arriving sample of the log append
order. -/
theorem C3_L0_time_axis (samples : List Sample) :
    timeSorted (make_L0 samples)
    ∧ ((make_L0 samples).map Sample.time).Nodup
    ∧ ∀ t, findTime (make_L0 samples) t
        = (samples.filter fun s => s.time == t).getLast? :=
  ⟨make_L0_sorted samples, timeSorted_nodup _ (make_L0_sorted samples),
    fun t => findTime_make_L0 samples t⟩

theorem mem_times_insertSample (s : Sample) (l : List Sample) (u : Nat) :
    u ∈ (insertSample s l).map Sample.time ↔
      u = s.time ∨ u ∈ l.map Sample.time := by
  induction l with
  | nil => simp [insertSample]
  | cons t rest ih =>
    by_cases h1 : s.time < t.time
    · rw [show insertSample s (t :: rest) = s :: t :: rest from by
        simp [insertSample, h1]]
      simp only [List.map_cons, List.mem_cons]
    · by_cases h2 : s.time = t.time
      · rw [show insertSample s (t :: rest) = s :: rest from by
          simp [insertSample, h1, h2]]
        simp only [List.map_cons, List.mem_cons, ← h2]
        tauto
      · rw [show insertSample s (t :: rest) = t :: insertSample s rest from by
          simp [insertSample, h1, h2]]
        simp only [List.map_cons, List.mem_cons, ih]
        tauto

theorem length_insertSample (s : Sample) (l : List Sample)
    (h : timeSorted l) :
    (insertSample s l).length
      = if s.time ∈ l.map Sample.time then l.length else l.length + 1 := by
  induction l with
  | nil => simp [insertSample]
  | cons t rest ih =>
    have hp := List.pairwise_cons.mp (List.chain'_iff_pairwise.mp h)
    have hrest : timeSorted rest := h.tail
    by_cases h1 : s.time < t.time
    · rw [show insertSample s (t :: rest) = s :: t :: rest from by
        simp [insertSample, h1]]
      have hmem : s.time ∉ (t :: rest).map Sample.time := by
        simp only [List.map_cons, List.mem_cons]
        push_neg
        refine ⟨by omega, fun hmem2 => ?_⟩
        obtain ⟨b, hb, hbt⟩ := List.mem_map.mp hmem2
        have := hp.1 b hb
        omega
      rw [if_neg hmem]
      simp
    · by_cases h2 : s.time = t.time
      · rw [show insertSample s (t :: rest) = s :: rest from by
          simp [insertSample, h1, h2]]
        rw [if_pos (by simp [h2])]
        simp
      · rw [show insertSample s (t :: rest) = t :: insertSample s rest from by
          simp [insertSample, h1, h2]]
        by_cases hm : s.time ∈ rest.map Sample.time
        · rw [List.length_cons, ih hrest, if_pos hm, if_pos (by simp [hm]),
            List.length_cons]
        · rw [List.length_cons, ih hrest, if_neg hm,
            if_neg (by simp [h2, hm]), List.length_cons]

theorem mem_times_finalize (prior raw : List Sample) (u : Nat) :
    u ∈ (finalizeRealtime prior raw).map Sample.time ↔
      u ∈ raw.map Sample.time ∨ u ∈ prior.map Sample.time := by
  induction raw generalizing prior with
  | nil => simp [finalizeRealtime]
  | cons s rest ih =>
    rw [finalizeRealtime, List.foldl_cons, ← finalizeRealtime, ih,
      mem_times_insertSample]
    simp only [List.map_cons, List.mem_cons]
    tauto

theorem finalize_sorted (prior raw : List Sample) (h : timeSorted prior) :
    timeSorted (finalizeRealtime prior raw) :=
  foldl_insert_sorted raw prior h

theorem finalize_length_seen (prior raw : List Sample) (h : timeSorted prior)
    (hall : ∀ s ∈ raw, s.time ∈ prior.map Sample.time) :
    (finalizeRealtime prior raw).length = prior.length := by
  induction raw generalizing prior with
  | nil => rfl
  | cons s rest ih =>
    rw [finalizeRealtime, List.foldl_cons, ← finalizeRealtime]
    have h1 : (insertSample s prior).length = prior.length := by
      rw [length_insertSample s prior h, if_pos (hall s (by simp))]
    rw [ih (insertSample s prior) (insertSample_sorted s prior h)
      (fun x hx => (mem_times_insertSample s prior x.time).mpr
        (Or.inr (hall x (List.mem_cons_of_mem s hx)))), h1]

theorem finalize_length_new (prior new : List Sample) (h : timeSorted prior)
    (hfresh : ∀ s ∈ new, s.time ∉ prior.map Sample.time)
    (hnd : (new.map Sample.time).Nodup) :
    (finalizeRealtime prior new).length = prior.length + new.length := by
  induction new generalizing prior with
  | nil => rfl
  | cons n rest ih =>
    rw [finalizeRealtime, List.foldl_cons, ← finalizeRealtime]
    have hlen : (insertSample n prior).length = prior.length + 1 := by
      rw [length_insertSample n prior h, if_neg (hfresh n (by simp))]
    have hnd2 : n.time ∉ rest.map Sample.time ∧
        (rest.map Sample.time).Nodup := by
      rw [List.map_cons, List.nodup_cons] at hnd
      exact hnd
    have hfresh2 : ∀ s ∈ rest,
        s.time ∉ (insertSample n prior).map Sample.time := by
      intro x hx
      rw [mem_times_insertSample]
      push_neg
      refine ⟨fun hEq => hnd2.1 ?_, hfresh x (by simp [hx])⟩
      exact hEq ▸ List.mem_map_of_mem Sample.time hx
    rw [ih (insertSample n prior) (insertSample_sorted n prior h) hfresh2
      hnd2.2, hlen]
    simp only [List.length_cons]
    omega

/-- C8: realtime finalization is idempotent per timestamp: re-running over a
raw directory whose already-finalized samples are joined by exactly 10 new
samples with fresh distinct timestamps yields a finalized output with a
strictly increasing time axis holding exactly the prior record count plus
10, and re-ingesting an already-finalized time range adds no records. -/
theorem C8_realtime_idempotent (prior oldRaw newRaw : List Sample)
    (hsorted : timeSorted prior)
    (hold : ∀ s ∈ oldRaw, s.time ∈ prior.map Sample.time)
    (hnew : ∀ s ∈ newRaw, s.time ∉ prior.map Sample.time)
    (hnd : (newRaw.map Sample.time).Nodup)
    (hcount : newRaw.length = 10) :
    timeSorted (finalizeRealtime prior (oldRaw ++ newRaw))
    ∧ (finalizeRealtime prior (oldRaw ++ newRaw)).length = prior.length + 10
    ∧ ∀ raw2, (∀ s ∈ raw2, s.time ∈ prior.map Sample.time) →
        (finalizeRealtime prior raw2).length = prior.length := by
  have hsplit : finalizeRealtime prior (oldRaw ++ newRaw)
      = finalizeRealtime (finalizeRealtime prior oldRaw) newRaw := by
    rw [finalizeRealtime, List.foldl_append, finalizeRealtime,
      finalizeRealtime]
  have hsort2 : timeSorted (finalizeRealtime prior oldRaw) :=
    finalize_sorted _ _ hsorted
  have hmem2 : ∀ u, u ∈ (finalizeRealtime prior oldRaw).map Sample.time ↔
      u ∈ prior.map Sample.time := by
    intro u
    rw [mem_times_finalize]
    constructor
    · rintro (h | h)
      · obtain ⟨b, hb, hbt⟩ := List.mem_map.mp h
        exact hbt ▸ hold b hb
      · exact h
    · exact Or.inr
  refine ⟨?_, ?_, ?_⟩
  · rw [hsplit]
    exact finalize_sorted _ _ hsort2
  · rw [hsplit, finalize_length_new _ _ hsort2
      (fun s hs hc => hnew s hs ((hmem2 s.time).mp hc)) hnd,
      finalize_length_seen prior oldRaw hsorted hold, hcount]
  · intro raw2 h2
    exact finalize_length_seen prior raw2 hsorted h2

/-- Witness for C8 at concrete inputs: re-running over the already-finalized
samples plus 10 new ones yields exactly the prior count plus 10. -/
theorem C8_realtime_idempotent_witness :
    (finalizeRealtime priorW (priorW ++ newW)).length = priorW.length + 10 :=
  (C8_realtime_idempotent priorW priorW newW (by simp [priorW]) (by decide)
    (by decide) (by decide) (by decide)).2.1

/-- C7: every L0 sample of an observed variable carries exactly one quality
flag drawn from the fixed set of pass, suspect, fail and missing, and all
L0 values, the fail-flagged ones included, are preserved unmodified in the
L1 output. -/
theorem C7_L1_preserves_values (cfg : QCConfig) (prev : Option Int)
    (column : List (Option Int)) :
    (make_L1 cfg prev column).map Prod.fst = column
    ∧ (make_L1 cfg prev column).length = column.length
    ∧ ∀ e ∈ make_L1 cfg prev column,
        e.2 = QCFlag.pass ∨ e.2 = QCFlag.suspect ∨ e.2 = QCFlag.fail
          ∨ e.2 = QCFlag.missing := by
  induction column generalizing prev with
  | nil => exact ⟨rfl, rfl, by simp [make_L1]⟩
  | cons v rest ih =>
    refine ⟨?_, ?_, ?_⟩
    · simp only [make_L1, List.map_cons, (ih _).1]
    · simp only [make_L1, List.length_cons, (ih _).2]
    · intro e he
      simp only [make_L1, List.mem_cons] at he
      rcases he with rfl | he
      · rcases hq : qcFlag cfg prev v with _ | _ | _ | _ <;> simp [hq]
      · exact (ih _).2.2 e he

/-- Witness for C7 at concrete inputs: the three-sample column keeps its
values, and the out-of-range third sample carries one flag of the fixed
set. -/
theorem C7_L1_preserves_values_witness :
    (make_L1 ⟨0, 100, 5⟩ none [some 3, none, some 200]).map Prod.fst
        = [some 3, none, some 200]
    ∧ (((some 200 : Option Int), QCFlag.fail).2 = QCFlag.pass
        ∨ ((some 200 : Option Int), QCFlag.fail).2 = QCFlag.suspect
        ∨ ((some 200 : Option Int), QCFlag.fail).2 = QCFlag.fail
        ∨ ((some 200 : Option Int), QCFlag.fail).2 = QCFlag.missing) :=
  ⟨(C7_L1_preserves_values ⟨0, 100, 5⟩ none [some 3, none, some 200]).1,
    (C7_L1_preserves_values ⟨0, 100, 5⟩ none [some 3, none, some 200]).2.2
      (some 200, QCFlag.fail) (by decide)⟩

theorem findVar_append_of_isSome (ts extra : List (String × List Int))
    (name : String) (hs : (findVar ts name).isSome) :
    findVar (ts ++ extra) name = findVar ts name := by
  unfold findVar at hs ⊢
  rw [List.find?_append]
  rcases hf : ts.find? fun v => v.1 == name with _ | x
  · rw [hf] at hs
    simp at hs
  · rw [hf]
    rfl

/-- C10: each delayed-mode correction only appends new derived variables to
the merged timeseries, leaving every input variable readable unchanged, and
when the relevant sensor is absent the correction is a no-op returning the
timeseries untouched. -/
theorem C10_corrections_frame (p : CorrectionParams)
    (ts : List (String × List Int)) :
    (∃ extra, thermal_lag p ts = ts ++ extra)
    ∧ (∃ extra, optode_correction p ts = ts ++ extra)
    ∧ (∀ name, (findVar ts name).isSome →
        findVar (thermal_lag p ts) name = findVar ts name
        ∧ findVar (optode_correction p ts) name = findVar ts name)
    ∧ (findVar ts "conductivity" = none → thermal_lag p ts = ts)
    ∧ (findVar ts "oxygen_concentration" = none →
        optode_correction p ts = ts) := by
  have hT : ∃ extra, thermal_lag p ts = ts ++ extra := by
    unfold thermal_lag
    rcases findVar ts "conductivity" with _ | c
    · exact ⟨[], by simp⟩
    · rcases findVar ts "temperature" with _ | w
      · exact ⟨[], by simp⟩
      · exact ⟨_, rfl⟩
  have hO : ∃ extra, optode_correction p ts = ts ++ extra := by
    unfold optode_correction
    rcases findVar ts "oxygen_concentration" with _ | o
    · exact ⟨[], by simp⟩
    · exact ⟨_, rfl⟩
  refine ⟨hT, hO, ?_, ?_, ?_⟩
  · intro name hs
    obtain ⟨e1, he1⟩ := hT
    obtain ⟨e2, he2⟩ := hO
    rw [he1, he2]
    exact ⟨findVar_append_of_isSome ts e1 name hs,
      findVar_append_of_isSome ts e2 name hs⟩
  · intro h
    unfold thermal_lag
    rw [h]
  · intro h
    unfold optode_correction
    rw [h]

/-- Witness for C10 at concrete inputs: a timeseries without a conductivity
column passes through the thermal-lag correction untouched, and the lookup
of its temperature column is unchanged by the optode correction. -/
theorem C10_corrections_frame_witness :
    thermal_lag ⟨1, 1⟩ [("temperature", [10, 11])]
        = [("temperature", [10, 11])]
    ∧ findVar (optode_correction ⟨1, 1⟩ [("temperature", [10, 11])])
        "temperature"
      = findVar [("temperature", [10, 11])] "temperature" :=
  ⟨(C10_corrections_frame ⟨1, 1⟩ _).2.2.2.1 (by decide),
    ((C10_corrections_frame ⟨1, 1⟩ _).2.2.1 "temperature" (by decide)).2⟩

theorem dirOf_stepD (d : VDir) (x : Int) : dirOf x (stepD d x) = d := by
  cases d
  · rw [show stepD .dive x = x + 1 from rfl, dirOf, if_pos (by omega)]
  · rw [show stepD .climb x = x - 1 from rfl, dirOf, if_neg (by omega)]

theorem flipD_ne (d : VDir) : flipD d ≠ d := by
  cases d <;> simp [flipD]

theorem flipD_flipD (d : VDir) : flipD (flipD d) = d := by
  cases d <;> rfl

theorem runEnd_stepD (d : VDir) (x : Int) (n : Nat) :
    runEnd d (stepD d x) n = runEnd d x (n + 1) := by
  cases d <;> simp only [runEnd, stepD] <;> push_cast <;> ring

theorem runEnd_zero (d : VDir) (x : Int) : runEnd d x 0 = x := by
  cases d <;> simp [runEnd]

theorem splitAux_run (d : VDir) (n : Nat) (x : Int) (acc rest : List Int) :
    splitAux x d acc (mkRun d x n ++ rest)
      = splitAux (runEnd d x n) d ((mkRun d x n).reverse ++ acc) rest := by
  induction n generalizing x acc with
  | zero => rw [mkRun, runEnd_zero, List.reverse_nil, List.nil_append,
      List.nil_append]
  | succ n ih =>
    show splitAux x d acc
        (stepD d x :: (mkRun d (stepD d x) n ++ rest)) = _
    rw [splitAux, dirOf_stepD, if_pos rfl, ih, runEnd_stepD,
      show mkRun d x (n + 1) = stepD d x :: mkRun d (stepD d x) n from rfl,
      List.reverse_cons, List.append_assoc, List.singleton_append]

theorem splitAux_switch (d : VDir) (n : Nat) (x : Int) (acc rest : List Int) :
    splitAux x d acc (mkRun (flipD d) x (n + 1) ++ rest)
      = acc.reverse ::
          splitAux (runEnd (flipD d) x (n + 1)) (flipD d)
            ((mkRun (flipD d) x (n + 1)).reverse) rest := by
  show splitAux x d acc (stepD (flipD d) x ::
      (mkRun (flipD d) (stepD (flipD d) x) n ++ rest)) = _
  rw [splitAux, dirOf_stepD, if_neg (flipD_ne d), splitAux_run, runEnd_stepD,
    show mkRun (flipD d) x (n + 1)
      = stepD (flipD d) x :: mkRun (flipD d) (stepD (flipD d) x) n from rfl,
    List.reverse_cons]

theorem splitAux_sawAux (d : VDir) (ls : List Nat) (x : Int)
    (acc : List Int) (h : ∀ l ∈ ls, 1 ≤ l) :
    splitAux x d acc (sawAux x (flipD d) ls)
      = acc.reverse :: expectedSegs x (flipD d) ls := by
  induction ls generalizing x d acc with
  | nil => rw [sawAux, expectedSegs, splitAux]
  | cons l ls ih =>
    obtain ⟨n, rfl⟩ : ∃ n, l = n + 1 :=
      ⟨l - 1, by have := h l (by simp); omega⟩
    rw [sawAux, splitAux_switch,
      ih (flipD d) _ _ (fun u hu => h u (by simp [hu])),
      List.reverse_reverse, flipD_flipD, expectedSegs, flipD_flipD]

theorem splitProfiles_sawtooth (x : Int) (d : VDir) (l0 : Nat)
    (ls : List Nat) (h0 : 1 ≤ l0) (h : ∀ l ∈ ls, 1 ≤ l) :
    splitProfiles (sawtooth x d (l0 :: ls))
      = (x :: mkRun d x l0)
          :: expectedSegs (runEnd d x l0) (flipD d) ls := by
  obtain ⟨n, rfl⟩ : ∃ n, l0 = n + 1 := ⟨l0 - 1, by omega⟩
  show splitProfiles (x :: stepD d x :: (mkRun d (stepD d x) n
      ++ sawAux (runEnd d x (n + 1)) (flipD d) ls)) = _
  rw [splitProfiles, dirOf_stepD, splitAux_run, runEnd_stepD,
    splitAux_sawAux d ls _ _ h,
    show mkRun d x (n + 1) = stepD d x :: mkRun d (stepD d x) n from rfl]
  rw [List.reverse_append, List.reverse_reverse]
  rfl

theorem splitAux_length (rest : List Int) (prev : Int) (d : VDir)
    (acc : List Int) :
    (splitAux prev d acc rest).length
      = countRev (d :: dirs (prev :: rest)) + 1 := by
  induction rest generalizing prev d acc with
  | nil => rw [splitAux, dirs, countRev, List.length_singleton]
  | cons y r ih =>
    rw [splitAux]
    by_cases hd : dirOf prev y = d
    · rw [if_pos hd, ih,
        show dirs (prev :: y :: r) = dirOf prev y :: dirs (y :: r) from rfl,
        hd,
        show countRev (d :: d :: dirs (y :: r))
          = (if d = d then 0 else 1) + countRev (d :: dirs (y :: r)) from rfl,
        if_pos rfl]
      omega
    · rw [if_neg hd, List.length_cons, ih,
        show dirs (prev :: y :: r) = dirOf prev y :: dirs (y :: r) from rfl,
        show countRev (d :: dirOf prev y :: dirs (y :: r))
          = (if d = dirOf prev y then 0 else 1)
            + countRev (dirOf prev y :: dirs (y :: r)) from rfl,
        if_neg (fun hc => hd hc.symm)]
      omega

theorem splitProfiles_length (depths : List Int) (h : depths ≠ []) :
    (splitProfiles depths).length = reversals depths + 1 := by
  match depths with
  | [] => exact absurd rfl h
  | [x] => rw [splitProfiles, reversals, dirs, countRev, List.length_singleton]
  | x :: y :: rest =>
    rw [splitProfiles, splitAux_length, reversals]
    rfl

theorem mergeShortGo_ne_nil (m : Nat) (cur : List Int)
    (rest : List (List Int)) : mergeShortGo m cur rest ≠ [] := by
  induction rest generalizing cur with
  | nil => simp [mergeShortGo]
  | cons t r ih =>
    rw [mergeShortGo]
    by_cases hl : cur.length < m
    · rw [if_pos hl]
      exact ih (cur ++ t)
    · rw [if_neg hl]
      simp

theorem mergeShortGo_flatten (m : Nat) (cur : List Int)
    (rest : List (List Int)) :
    (mergeShortGo m cur rest).flatten = cur ++ rest.flatten := by
  induction rest generalizing cur with
  | nil => simp [mergeShortGo]
  | cons t r ih =>
    rw [mergeShortGo]
    by_cases hl : cur.length < m
    · rw [if_pos hl, ih, List.flatten_cons, List.append_assoc]
    · rw [if_neg hl, List.flatten_cons, ih, List.flatten_cons]

theorem mergeShort_flatten (m : Nat) (segs : List (List Int)) :
    (mergeShort m segs).flatten = segs.flatten := by
  cases segs with
  | nil => rfl
  | cons s rest => rw [mergeShort, mergeShortGo_flatten, List.flatten_cons]

theorem mergeShortGo_dropLast (m : Nat) (cur : List Int)
    (rest : List (List Int)) :
    ∀ s ∈ (mergeShortGo m cur rest).dropLast, m ≤ s.length := by
  induction rest generalizing cur with
  | nil => simp [mergeShortGo]
  | cons t r ih =>
    rw [mergeShortGo]
    by_cases hl : cur.length < m
    · rw [if_pos hl]
      exact ih (cur ++ t)
    · rw [if_neg hl,
        List.dropLast_cons_of_ne_nil (mergeShortGo_ne_nil m t r)]
      intro u hu
      rcases List.mem_cons.mp hu with rfl | hu
      · omega
      · exact ih t u hu

theorem mergeShort_dropLast (m : Nat) (segs : List (List Int)) :
    ∀ s ∈ (mergeShort m segs).dropLast, m ≤ s.length := by
  cases segs with
  | nil => simp [mergeShort]
  | cons s rest => exact mergeShortGo_dropLast m s rest

theorem mergeShortGo_id (m : Nat) (cur : List Int) (rest : List (List Int))
    (hc : m ≤ cur.length) (h : ∀ s ∈ rest, m ≤ s.length) :
    mergeShortGo m cur rest = cur :: rest := by
  induction rest generalizing cur with
  | nil => rfl
  | cons t r ih =>
    rw [mergeShortGo, if_neg (by omega),
      ih t (h t (by simp)) (fun u hu => h u (by simp [hu]))]

theorem mergeShort_id (m : Nat) (segs : List (List Int))
    (h : ∀ s ∈ segs, m ≤ s.length) : mergeShort m segs = segs := by
  cases segs with
  | nil => rfl
  | cons s rest =>
    rw [mergeShort, mergeShortGo_id m s rest (h s (by simp))
      (fun u hu => h u (by simp [hu]))]

theorem fixLast_flatten (m : Nat) :
    (segs : List (List Int)) → (fixLast m segs).flatten = segs.flatten
  | [] => rfl
  | [s] => rfl
  | [s, t] => by
    rw [fixLast]
    by_cases hl : t.length < m
    · rw [if_pos hl]
      simp
    · rw [if_neg hl]
  | s :: t :: u :: rest => by
    rw [fixLast, List.flatten_cons, fixLast_flatten m (t :: u :: rest)]
    simp

theorem fixLast_min (m : Nat) :
    (segs : List (List Int)) → 2 ≤ segs.length →
    (∀ s ∈ segs.dropLast, m ≤ s.length) →
    ∀ s ∈ fixLast m segs, m ≤ s.length
  | [], h, _ => by simp at h
  | [s], h, _ => by simp at h
  | [s, t], _, hd => by
    have hs : m ≤ s.length := hd s (by simp)
    rw [fixLast]
    by_cases hl : t.length < m
    · rw [if_pos hl]
      intro u hu
      rcases List.mem_singleton.mp hu with rfl
      rw [List.length_append]
      omega
    · rw [if_neg hl]
      intro u hu
      rcases List.mem_cons.mp hu with rfl | hu
      · exact hs
      · rcases List.mem_singleton.mp hu with rfl
        omega
  | s :: t :: u :: rest, _, hd => by
    rw [fixLast]
    intro v hv
    rcases List.mem_cons.mp hv with rfl | hv
    · exact hd v (by simp)
    · refine fixLast_min m (t :: u :: rest) (by simp) ?_ v hv
      intro w hw
      refine hd w ?_
      rw [List.dropLast_cons₂]
      exact List.mem_cons_of_mem s hw

theorem fixLast_id (m : Nat) :
    (segs : List (List Int)) → (∀ s ∈ segs, m ≤ s.length) →
    fixLast m segs = segs
  | [], _ => rfl
  | [s], _ => rfl
  | [s, t], h => by
    rw [fixLast, if_neg (by have := h t (by simp); omega)]
  | s :: t :: u :: rest, h => by
    rw [fixLast, fixLast_id m (t :: u :: rest)
      (fun v hv => h v (by simp [hv]))]

theorem splitAux_flatten (rest : List Int) (prev : Int) (d : VDir)
    (acc : List Int) :
    (splitAux prev d acc rest).flatten = acc.reverse ++ rest := by
  induction rest generalizing prev d acc with
  | nil => rw [splitAux]; simp
  | cons y r ih =>
    rw [splitAux]
    by_cases hd : dirOf prev y = d
    · rw [if_pos hd, ih]
      simp
    · rw [if_neg hd, List.flatten_cons, ih]
      simp

theorem splitProfiles_flatten :
    (depths : List Int) → (splitProfiles depths).flatten = depths
  | [] => rfl
  | [x] => by simp [splitProfiles]
  | x :: y :: rest => by
    rw [splitProfiles, splitAux_flatten]
    rfl

theorem dirRel_stepD (d : VDir) (x : Int) : dirRel d x (stepD d x) := by
  cases d
  · show x < x + 1
    omega
  · show x - 1 < x
    omega

theorem chain_cons_mkRun (d : VDir) (x : Int) (n : Nat) :
    (x :: mkRun d x n).Chain' (dirRel d) := by
  induction n generalizing x with
  | zero => simp [mkRun]
  | succ n ih =>
    rw [show mkRun d x (n + 1) = stepD d x :: mkRun d (stepD d x) n from rfl]
    exact List.chain'_cons.mpr ⟨dirRel_stepD d x, ih (stepD d x)⟩

theorem monotoneSeg_cons_mkRun (d : VDir) (x : Int) (n : Nat) :
    monotoneSeg (x :: mkRun d x n) := by
  cases d
  · exact Or.inl (chain_cons_mkRun .dive x n)
  · exact Or.inr (chain_cons_mkRun .climb x n)

theorem monotoneSeg_mkRun (d : VDir) (x : Int) (n : Nat) :
    monotoneSeg (mkRun d x n) := by
  rcases monotoneSeg_cons_mkRun d x n with h | h
  · exact Or.inl h.tail
  · exact Or.inr h.tail

theorem mkRun_length (d : VDir) (x : Int) (n : Nat) :
    (mkRun d x n).length = n := by
  induction n generalizing x with
  | zero => rfl
  | succ n ih =>
    rw [show mkRun d x (n + 1) = stepD d x :: mkRun d (stepD d x) n from rfl,
      List.length_cons, ih]

theorem expectedSegs_length (ls : List Nat) (x : Int) (d : VDir) :
    (expectedSegs x d ls).length = ls.length := by
  induction ls generalizing x d with
  | nil => rfl
  | cons l ls ih => rw [expectedSegs, List.length_cons, ih, List.length_cons]

theorem expectedSegs_minlen (m : Nat) (ls : List Nat) (x : Int) (d : VDir)
    (h : ∀ l ∈ ls, m ≤ l) : ∀ s ∈ expectedSegs x d ls, m ≤ s.length := by
  induction ls generalizing x d with
  | nil => simp [expectedSegs]
  | cons l ls ih =>
    intro s hs
    rw [expectedSegs, List.mem_cons] at hs
    rcases hs with rfl | hs
    · rw [mkRun_length]
      exact h l (by simp)
    · exact ih _ _ (fun u hu => h u (by simp [hu])) s hs

theorem expectedSegs_monotone (ls : List Nat) (x : Int) (d : VDir) :
    ∀ s ∈ expectedSegs x d ls, monotoneSeg s := by
  induction ls generalizing x d with
  | nil => simp [expectedSegs]
  | cons l ls ih =>
    intro s hs
    rw [expectedSegs, List.mem_cons] at hs
    rcases hs with rfl | hs
    · exact monotoneSeg_mkRun d x l
    · exact ih _ _ s hs

/-- C9: splitting yields one more profile segment than the number of
vertical-direction reversals; on every synthetic sawtooth signal whose runs
all reach the minimum sample count the profiles are exactly the monotone
runs, each internally monotonic in depth-direction; a segment shorter than
the minimum sample count is merged into a neighbor rather than emitted, no
sample being lost; and the emitted profiles bear the sequential identifiers
0, 1, 2 and so on. -/
theorem C9_profile_splitting :
    (∀ depths : List Int, depths ≠ [] →
        (splitProfiles depths).length = reversals depths + 1)
    ∧ (∀ (m : Nat) (x : Int) (d : VDir) (l0 : Nat) (ls : List Nat),
        1 ≤ l0 → (∀ l ∈ ls, 1 ≤ l) → m ≤ l0 → (∀ l ∈ ls, m ≤ l) →
          profiles m (sawtooth x d (l0 :: ls))
              = splitProfiles (sawtooth x d (l0 :: ls))
          ∧ (splitProfiles (sawtooth x d (l0 :: ls))).length = ls.length + 1
          ∧ reversals (sawtooth x d (l0 :: ls)) = ls.length
          ∧ ∀ s ∈ splitProfiles (sawtooth x d (l0 :: ls)), monotoneSeg s)
    ∧ (∀ (m : Nat) (depths : List Int),
        (profiles m depths).flatten = depths
        ∧ (2 ≤ (mergeShort m (splitProfiles depths)).length →
            ∀ s ∈ profiles m depths, m ≤ s.length))
    ∧ ∀ (m : Nat) (depths : List Int),
        (profilesWithIds m depths).map Prod.fst
          = List.range (profiles m depths).length := by
  refine ⟨splitProfiles_length, ?_, ?_, ?_⟩
  · intro m x d l0 ls h1 hls1 hm hlsm
    have hsplit := splitProfiles_sawtooth x d l0 ls h1 hls1
    have hminseg : ∀ s ∈ splitProfiles (sawtooth x d (l0 :: ls)),
        m ≤ s.length := by
      rw [hsplit]
      intro s hs
      rcases List.mem_cons.mp hs with rfl | hs
      · rw [List.length_cons, mkRun_length]
        omega
      · exact expectedSegs_minlen m ls _ _ hlsm s hs
    have hlen : (splitProfiles (sawtooth x d (l0 :: ls))).length
        = ls.length + 1 := by
      rw [hsplit, List.length_cons, expectedSegs_length]
    refine ⟨?_, hlen, ?_, ?_⟩
    · rw [profiles, mergeShort_id m _ hminseg, fixLast_id m _ hminseg]
    · have hrev := splitProfiles_length (sawtooth x d (l0 :: ls))
        (by simp [sawtooth])
      omega
    · rw [hsplit]
      intro s hs
      rcases List.mem_cons.mp hs with rfl | hs
      · exact monotoneSeg_cons_mkRun d x l0
      · exact expectedSegs_monotone ls _ _ s hs
  · intro m depths
    refine ⟨?_, ?_⟩
    · rw [profiles, fixLast_flatten, mergeShort_flatten, splitProfiles_flatten]
    · intro h2
      exact fixLast_min m _ h2 (mergeShort_dropLast m _)
  · intro m depths
    show List.map Prod.fst (List.enumFrom 0 (profiles m depths)) = _
    rw [List.enumFrom_map_fst, ← List.range_eq_range']

/-- Witness for C9 at concrete inputs: the sawtooth with three runs of
three steps splits into three segments and has two reversals. -/
theorem C9_profile_splitting_witness :
    (splitProfiles (sawtooth 0 VDir.dive [3, 3, 3])).length = 3
    ∧ reversals (sawtooth 0 VDir.dive [3, 3, 3]) = 2 :=
  ⟨(C9_profile_splitting.2.1 2 0 VDir.dive 3 [3, 3] (by decide) (by decide)
      (by decide) (by decide)).2.1,
    (C9_profile_splitting.2.1 2 0 VDir.dive 3 [3, 3] (by decide) (by decide)
      (by decide) (by decide)).2.2.1⟩

end Kiwiglider
